import Mathlib

/-!
# germanium: the PNG formatter (`formatter.go`)

A shallow embedding of `PNGFormatter.format` and `chooseColorBasedOnContrast`.

* Fixed-point pen coordinates (`fixed.Int26_6`, an `int32` counting 1/64 pixel) are integers
  with an explicit two's-complement truncation `wrap32` after every operation.
* `font.Drawer` is a record of the pen (`Dot`), the paint source (`Src`), the face and the
  destination.  The destination is kept as the ordered log of `DrawString` calls made on it.
* The glyph engine, the style table, the window background colour and the PNG encoder are not
  part of `formatter.go`; they are parameters.
-/

namespace Germanium

/-! ## Machine integers and `golang.org/x/image/math/fixed` -/

/-- Two's-complement truncation of an integer to 32 bits: the Go conversion to `int32`
(and so to `fixed.Int26_6`), and the result of every `int32` addition. -/
def wrap32 (z : Int) : Int := (z + 2147483648) % 4294967296 - 2147483648

/-- The values an `int32` can hold. -/
def inInt32 (z : Int) : Prop := -2147483648 ≤ z ∧ z < 2147483648

instance (z : Int) : Decidable (inInt32 z) := by unfold inInt32; infer_instance

/-- `fixed.I(i) = Int26_6(i << 6)`: whole pixels to 26.6 fixed point. -/
def fixed.I (i : Int) : Int := wrap32 (i * 64)

/-- `Int26_6.Round`: `int((x + 0x20) >> 6)`, the nearest whole pixel. -/
def Int26_6.Round (x : Int) : Int := wrap32 (x + 32) / 64

/-- Go's conversion `int(x)` of a float: the fractional part is discarded (truncation towards
zero).  A finite `float64` is a rational number.  The language defines the conversion only for
values that fit in the 64-bit `int`, that is for `-2^63 - 1 < x < 2^63`; beyond that the result
depends on the implementation and `goInt` does not describe it.  The statements about the font
size below carry the bound `fontSize < 2^63`. -/
def goInt (x : ℚ) : Int := if 0 ≤ x then ⌊x⌋ else ⌈x⌉

/-- `fixed.Point26_6`. -/
structure Point26_6 where
  X : Int
  Y : Int
  deriving DecidableEq, Repr

/-- `image.Point`: whole pixels. -/
structure Point where
  X : Int
  Y : Int
  deriving DecidableEq, Repr

/-! ## `image/color` -/

/-- The implementations of the interface `color.Color` that occur: `color.RGBA` (8-bit
channels), `color.Gray16` and `color.RGBA64` (16-bit channels). -/
inductive Color where
  | rgba (R G B A : Nat)
  | gray16 (Y : Nat)
  | rgba64 (R G B A : Nat)
  deriving DecidableEq, Repr

/-- The result of the method `RGBA()`: four `uint32` channels. -/
structure Channels where
  r : Nat
  g : Nat
  b : Nat
  a : Nat
  deriving DecidableEq, Repr

/-- The method `Color.RGBA()` of `color.RGBA` (`r |= r << 8`), `color.Gray16` and
`color.RGBA64`. -/
def Color.RGBA : Color → Channels
  | .rgba R G B A => ⟨R % 256 * 257, G % 256 * 257, B % 256 * 257, A % 256 * 257⟩
  | .gray16 Y => ⟨Y % 65536, Y % 65536, Y % 65536, 65535⟩
  | .rgba64 R G B A => ⟨R % 65536, G % 65536, B % 65536, A % 65536⟩

/-- `color.Black = Gray16{0}`. -/
def color.Black : Color := .gray16 0

/-- `color.White = Gray16{0xffff}`. -/
def color.White : Color := .gray16 65535

/-- `sqDiff` of `image/color`: `d := x - y; return (d * d) >> 2` on `uint32`. -/
def sqDiff (x y : Nat) : Nat :=
  let d := (x % 4294967296 + 4294967296 - y % 4294967296) % 4294967296
  (d * d % 4294967296) / 4

/-- The loop of `color.Palette.Index`: `i` is the index of the head of the remaining palette,
`ret` and `bestSum` are the loop variables. -/
def color.Palette.indexLoop (c : Channels) : List Color → Nat → Nat → Nat → Nat
  | [], _, ret, _ => ret
  | v :: vs, i, ret, bestSum =>
    let p := v.RGBA
    let sum := (sqDiff c.r p.r + sqDiff c.g p.g + sqDiff c.b p.b + sqDiff c.a p.a) % 4294967296
    if sum < bestSum then
      if sum = 0 then i else color.Palette.indexLoop c vs (i + 1) i sum
    else color.Palette.indexLoop c vs (i + 1) ret bestSum

/-- `color.Palette.Index`: the index of the palette colour closest to `c`. -/
def color.Palette.Index (p : List Color) (c : Color) : Nat :=
  color.Palette.indexLoop c.RGBA p 0 0 4294967295

/-- `chooseColorBasedOnContrast` (formatter.go:115-123).  The package variable
`windowBackgroundColor` is declared outside `formatter.go` and is a parameter. -/
def chooseColorBasedOnContrast (windowBackgroundColor : Color) : Color :=
  let black := color.Black
  let white := color.White
  let colorIndex := color.Palette.Index [black, white] windowBackgroundColor
  if colorIndex = 0 then white else black

/-! ## `chroma`: tokens and styles -/

/-- `chroma.TokenType`. -/
abbrev TokenType := Int

/-- `chroma.Keyword`. -/
def chroma.Keyword : TokenType := 1000

/-- `chroma.Text`. -/
def chroma.Text : TokenType := 8000

/-- `chroma.Colour`: an `int32`; zero is "not set", any other value is the RGB value plus
one. -/
abbrev Colour := Int

/-- `Colour.Red`: `uint8(((c - 1) >> 16) & 0xff)`. -/
def Colour.Red (c : Colour) : Nat := (wrap32 (c - 1) / 65536 % 256).toNat

/-- `Colour.Green`: `uint8(((c - 1) >> 8) & 0xff)`. -/
def Colour.Green (c : Colour) : Nat := (wrap32 (c - 1) / 256 % 256).toNat

/-- `Colour.Blue`: `uint8((c - 1) & 0xff)`. -/
def Colour.Blue (c : Colour) : Nat := (wrap32 (c - 1) % 256).toNat

/-- `chroma.StyleEntry`, the field read by the formatter. -/
structure StyleEntry where
  Colour : Colour

/-- `chroma.Style`, seen through its method `Get`. -/
structure Style where
  Get : TokenType → StyleEntry

/-- `chroma.Token`; `String()` returns `Value`, ranged over rune by rune. -/
structure Token where
  ttype : TokenType
  Value : List Char

/-! ## `golang.org/x/image/font`: the glyph engine -/

/-- The face, seen through `font.MeasureString`: how far the dot advances when a string is
drawn, in 26.6 fixed-point units. -/
structure Face where
  advance : List Char → Int

/-- One call of `DrawString`: the string, the dot it was drawn at and the paint source. -/
structure PaintOp where
  text : List Char
  dot : Point26_6
  src : Color
  deriving DecidableEq, Repr

/-- `font.Drawer`.  `Dst` is the ordered log of what was drawn on the destination image. -/
structure Drawer where
  Dst : List PaintOp
  Src : Color
  Face : Face
  Dot : Point26_6

/-- `Drawer.MeasureString`: an `Int26_6`. -/
def Drawer.MeasureString (d : Drawer) (s : List Char) : Int := wrap32 (d.Face.advance s)

/-- `Drawer.DrawString`: "draws s at the dot and advances the dot's location"; the advance is
what `MeasureString` returns ("how far dot would advance by drawing s"). -/
def Drawer.DrawString (d : Drawer) (s : List Char) : Drawer :=
  { d with
    Dst := d.Dst ++ [⟨s, d.Dot, d.Src⟩]
    Dot := ⟨wrap32 (d.Dot.X + d.MeasureString s), d.Dot.Y⟩ }

/-! ## `strconv` and `fmt` -/

/-- `strconv.Itoa` on a non-negative integer: its decimal digits. -/
def strconv.Itoa (n : Nat) : List Char := Nat.toDigits 10 n

/-- `fmt.Sprintf("%<width>d", k)` for non-negative `k`: the decimal digits of `k`, padded with
spaces on the left up to `width` characters. -/
def sprintfPadded (width k : Nat) : List Char :=
  List.replicate (width - (strconv.Itoa k).length) ' ' ++ strconv.Itoa k

/-! ## `PNGFormatter` -/

/-- `PNGFormatter` (formatter.go:22-27).  The drawer is threaded through the functions below
as explicit state. -/
structure PNGFormatter where
  fontSize : ℚ
  startPoint : Point
  hasLineNum : Bool

/-- The width in `format := fmt.Sprintf("%%%dd", len(strconv.Itoa(len(lines)))+1)`
(formatter.go:49). -/
def labelWidth (nlines : Nat) : Nat := (strconv.Itoa nlines).length + 1

/-- `left` (formatter.go:45). -/
def PNGFormatter.left (f : PNGFormatter) : Int := wrap32 (f.startPoint.X * 64)

/-- The update of `y` at the head of iteration `i` of the line loop (formatter.go:52-55). -/
def PNGFormatter.advanceY (f : PNGFormatter) (i : Nat) (y : Int) : Int :=
  let y1 := wrap32 (y + fixed.I (goInt f.fontSize))
  if i > 0 then wrap32 (y1 + fixed.I (goInt (f.fontSize * 0.25))) else y1

/-- The drawing of the line number (formatter.go:57-62). -/
def PNGFormatter.drawLineNumber (f : PNGFormatter) (windowBackgroundColor : Color)
    (nlines i : Nat) (y : Int) (d : Drawer) : Drawer :=
  if f.hasLineNum then
    let d1 := { d with Dot := ⟨f.left, d.Dot.Y⟩ }
    let d2 := { d1 with Dot := ⟨d1.Dot.X, y⟩ }
    let d3 := { d2 with Src := chooseColorBasedOnContrast windowBackgroundColor }
    d3.DrawString (sprintfPadded (labelWidth nlines) (i + 1))
  else d

/-- `sx` (formatter.go:64-67). -/
def PNGFormatter.sx (f : PNGFormatter) (d : Drawer) (nlines : Nat) : Int :=
  let sx := wrap32 (f.left + d.MeasureString [' '])
  if f.hasLineNum then
    wrap32 (sx + fixed.I (Int26_6.Round (d.MeasureString [' ']) * ((strconv.Itoa nlines).length + 1)))
  else sx

/-- The colour of a token (formatter.go:71-88). -/
def tokenColor (style : Style) (windowBackgroundColor : Color) (t : Token) : Color :=
  let chromaTokenColor := (style.Get t.ttype).Colour
  let chromaTokenColor :=
    if chromaTokenColor = 0 then (style.Get chroma.Text).Colour else chromaTokenColor
  if chromaTokenColor ≠ 0 then
    .rgba chromaTokenColor.Red chromaTokenColor.Green chromaTokenColor.Blue 255
  else chooseColorBasedOnContrast windowBackgroundColor

/-- The body of the loop over the characters of a token (formatter.go:93-106). -/
def drawChar (sx y : Int) (d : Drawer) (c : Char) : Drawer :=
  if c = '\n' then { d with Dot := ⟨sx, d.Dot.Y⟩ }
  else if c = '\t' then
    { d with Dot := ⟨wrap32 (d.Dot.X + d.MeasureString [' ', ' ', ' ', ' ']), d.Dot.Y⟩ }
  else
    let px := Int26_6.Round (d.MeasureString [c])
    let d1 := { d with Dot := ⟨wrap32 (d.Dot.X + wrap32 px), d.Dot.Y⟩ }
    let d2 := { d1 with Dot := ⟨d1.Dot.X, y⟩ }
    d2.DrawString [c]

/-- The body of the loop over the tokens of a line (formatter.go:71-107). -/
def drawToken (style : Style) (windowBackgroundColor : Color) (sx y : Int) (d : Drawer)
    (t : Token) : Drawer :=
  let d1 := { d with Src := tokenColor style windowBackgroundColor t }
  t.Value.foldl (drawChar sx y) d1

/-- The body of the loop over the lines, after the update of `y` (formatter.go:57-108). -/
def PNGFormatter.formatLine (f : PNGFormatter) (style : Style) (windowBackgroundColor : Color)
    (nlines i : Nat) (y : Int) (d : Drawer) (tokens : List Token) : Drawer :=
  let d1 := f.drawLineNumber windowBackgroundColor nlines i y d
  let sx := f.sx d1 nlines
  let d2 := { d1 with Dot := ⟨sx, d1.Dot.Y⟩ }
  tokens.foldl (drawToken style windowBackgroundColor sx y) d2

/-- The loop over the lines (formatter.go:51-109), from iteration `i` on: the state is `y` and
the drawer; `nlines` is `len(lines)`. -/
def PNGFormatter.formatLoop (f : PNGFormatter) (style : Style) (windowBackgroundColor : Color)
    (nlines : Nat) : Nat → Int → Drawer → List (List Token) → Int × Drawer
  | _, y, d, [] => (y, d)
  | i, y, d, tokens :: rest =>
    let y1 := f.advanceY i y
    PNGFormatter.formatLoop f style windowBackgroundColor nlines (i + 1) y1
      (f.formatLine style windowBackgroundColor nlines i y1 d tokens) rest

/-- `PNGFormatter.format` (formatter.go:44-112) on `lines`, the result of
`chroma.SplitTokensIntoLines(tokens)`.  `encode` is `png.Encode(w, ·)`: `none` is the `nil`
error.  Returns the drawer as the call leaves it and the returned error. -/
def PNGFormatter.format {E : Type} (f : PNGFormatter) (drawer : Drawer) (style : Style)
    (windowBackgroundColor : Color) (encode : List PaintOp → Option E)
    (lines : List (List Token)) : Drawer × Option E :=
  let y := wrap32 (f.startPoint.Y * 64)
  let d := (f.formatLoop style windowBackgroundColor lines.length 0 y drawer lines).2
  (d, encode d.Dst)

/-- `PNGFormatter.Format` (formatter.go:40-42): `format` on the tokens of the iterator; here
`lines` is what `chroma.SplitTokensIntoLines` makes of them. -/
def PNGFormatter.Format {E : Type} (f : PNGFormatter) (drawer : Drawer) (style : Style)
    (windowBackgroundColor : Color) (encode : List PaintOp → Option E)
    (lines : List (List Token)) : Drawer × Option E :=
  f.format drawer style windowBackgroundColor encode lines

/-! ## Definitions used to state the properties -/

/-- The characters for which `drawChar` calls `DrawString`: all but newline and tab. -/
def painted (c : Char) : Bool := c != '\n' && c != '\t'

/-- Squared Euclidean distance over the four channels. -/
def distSq (c p : Channels) : Int :=
  ((c.r : Int) - p.r) ^ 2 + ((c.g : Int) - p.g) ^ 2 + ((c.b : Int) - p.b) ^ 2
    + ((c.a : Int) - p.a) ^ 2

/-- The distance `sum` that `color.Palette.Index` computes between the colour `c` and the
palette entry `p`, both given by their channels. -/
def paletteSum (c p : Channels) : Nat :=
  (sqDiff c.r p.r + sqDiff c.g p.g + sqDiff c.b p.b + sqDiff c.a p.a) % 4294967296

/-- The style table as the specification reads it (§3, §6): the colour set for a token type,
as the opaque colour painted for it, or nothing when no colour is set. -/
def styleLookup (style : Style) (t : TokenType) : Option Color :=
  let c := (style.Get t).Colour
  if c = 0 then none else some (.rgba c.Red c.Green c.Blue 255)

/-- The contract `resolve` of the specification (§4.1), with the contrast fallback of the
code as its third tier. -/
def specResolve (styleTable : TokenType → Option Color) (background : Color)
    (tokenType : TokenType) : Color :=
  match styleTable tokenType with
  | some c => c
  | none =>
    match styleTable chroma.Text with
    | some c => c
    | none => chooseColorBasedOnContrast background

/-! ## A concrete setting: scenario A of the specification (§8) -/

/-- A face on which every glyph advances the dot by 7 pixels (448 units), without kerning. -/
def monoFace : Face := ⟨fun s => 448 * s.length⟩

/-- The style table `{Keyword: red, Text: null}`; nothing else is set. -/
def styleA : Style := ⟨fun t => if t = chroma.Keyword then ⟨16711681⟩ else ⟨0⟩⟩

/-- The line `[("Keyword","if"), ("Text"," x")]`. -/
def lineA : List Token := [⟨chroma.Keyword, ['i', 'f']⟩, ⟨chroma.Text, [' ', 'x']⟩]

/-- A drawer on `monoFace` with nothing drawn yet and the dot at the origin. -/
def drawerA : Drawer := ⟨[], color.Black, monoFace, ⟨0, 0⟩⟩

/-- Font size 10, start point (0, 0), no line numbers. -/
def formatterA : PNGFormatter := ⟨10, ⟨0, 0⟩, false⟩

/-- A face on which every glyph advances the dot by 7.5 pixels (480 units). -/
def halfPixelFace : Face := ⟨fun s => 480 * s.length⟩

/-- A face on which every glyph advances the dot by 7 pixels (448 units) and every pair of
adjacent glyphs is kerned apart by 10 units. -/
def kernedFace : Face := ⟨fun s => ((448 * s.length + 10 * (s.length - 1) : Nat) : Int)⟩

/-- Font size 10, start point (0, 0), line numbers drawn (scenario B of §8). -/
def formatterB : PNGFormatter := ⟨10, ⟨0, 0⟩, true⟩

/-! ## The line loop, unrolled -/

/-- The value of `y` during iteration `i + k` of the line loop, when iteration `i` is entered
with the value `y`. -/
def PNGFormatter.yIter (f : PNGFormatter) : Nat → Int → Nat → Int
  | i, y, 0 => f.advanceY i y
  | i, y, k + 1 => PNGFormatter.yIter f (i + 1) (f.advanceY i y) k

/-- The baseline of line `i` (0-based): the value of `y` during iteration `i` of the line
loop of `format`. -/
def PNGFormatter.baseline (f : PNGFormatter) (i : Nat) : Int :=
  f.yIter 0 (wrap32 (f.startPoint.Y * 64)) i

/-- What the token loop of a line paints at height `y` when it is entered with the pen at the
text start `sx`: the token loop run on an empty destination. -/
def lineGlyphs (style : Style) (windowBackgroundColor : Color) (face : Face) (sx y : Int)
    (tokens : List Token) : List PaintOp :=
  (tokens.foldl (drawToken style windowBackgroundColor sx y)
    ⟨[], color.Black, face, ⟨sx, y⟩⟩).Dst

/-- The line-number label of line `i` as `drawLineNumber` paints it, if it paints one. -/
def PNGFormatter.labelOps (f : PNGFormatter) (windowBackgroundColor : Color) (nlines i : Nat)
    (y : Int) : List PaintOp :=
  (f.drawLineNumber windowBackgroundColor nlines i y
    ⟨[], color.Black, ⟨fun _ => 0⟩, ⟨0, 0⟩⟩).Dst

/-! ## Fixed-point arithmetic -/

theorem wrap32_of_inInt32 {z : Int} (h : inInt32 z) : wrap32 z = z := by
  unfold wrap32; unfold inInt32 at h; omega

theorem inInt32_wrap32 (z : Int) : inInt32 (wrap32 z) := by
  unfold wrap32 inInt32; omega

theorem wrap32_add_left (a b : Int) : wrap32 (wrap32 a + b) = wrap32 (a + b) := by
  unfold wrap32; omega

theorem wrap32_add_right (a b : Int) : wrap32 (a + wrap32 b) = wrap32 (a + b) := by
  unfold wrap32; omega


/-! ## Characters -/

theorem drawChar_Face (sx y : Int) (d : Drawer) (c : Char) :
    (drawChar sx y d c).Face = d.Face := by
  unfold drawChar Drawer.DrawString
  split_ifs <;> rfl

theorem drawChar_Src (sx y : Int) (d : Drawer) (c : Char) :
    (drawChar sx y d c).Src = d.Src := by
  unfold drawChar Drawer.DrawString
  split_ifs <;> rfl

theorem drawChar_Dst (sx y : Int) (d : Drawer) (c : Char) :
    (drawChar sx y d c).Dst = d.Dst ++
      (if painted c then
        [⟨[c], ⟨wrap32 (d.Dot.X + Int26_6.Round (d.MeasureString [c])), y⟩, d.Src⟩]
      else []) := by
  unfold drawChar Drawer.DrawString painted
  by_cases h1 : c = '\n'
  · simp [h1]
  · by_cases h2 : c = '\t'
    · simp [h2]
    · simp [h1, h2, wrap32_add_right]

theorem drawChar_DotX (sx y : Int) (d : Drawer) (c : Char) :
    (drawChar sx y d c).Dot.X =
      if c = '\n' then sx
      else if c = '\t' then wrap32 (d.Dot.X + d.MeasureString [' ', ' ', ' ', ' '])
      else wrap32 (d.Dot.X + Int26_6.Round (d.MeasureString [c]) + d.MeasureString [c]) := by
  unfold drawChar Drawer.DrawString
  by_cases h1 : c = '\n'
  · simp [h1]
  · by_cases h2 : c = '\t'
    · simp [h2]
    · simp [h1, h2, Drawer.MeasureString, wrap32_add_right, wrap32_add_left]

theorem MeasureString_congr {d1 d2 : Drawer} (hF : d1.Face = d2.Face) (s : List Char) :
    d1.MeasureString s = d2.MeasureString s := by
  unfold Drawer.MeasureString; rw [hF]

/-- Two drawers that agree on the face, the pen's x and the source are taken by the character
loop to drawers that agree on them again, and the same operations are appended to both
destinations. -/
theorem foldl_drawChar_sim (sx y : Int) (cs : List Char) :
    ∀ d1 d2 : Drawer, d1.Face = d2.Face → d1.Dot.X = d2.Dot.X → d1.Src = d2.Src →
      (cs.foldl (drawChar sx y) d1).Face = (cs.foldl (drawChar sx y) d2).Face ∧
      (cs.foldl (drawChar sx y) d1).Dot.X = (cs.foldl (drawChar sx y) d2).Dot.X ∧
      (cs.foldl (drawChar sx y) d1).Src = (cs.foldl (drawChar sx y) d2).Src ∧
      ∃ ops, (cs.foldl (drawChar sx y) d1).Dst = d1.Dst ++ ops ∧
        (cs.foldl (drawChar sx y) d2).Dst = d2.Dst ++ ops := by
  induction cs with
  | nil =>
    intro d1 d2 hF hX hS
    exact ⟨hF, hX, hS, [], by simp, by simp⟩
  | cons c cs ih =>
    intro d1 d2 hF hX hS
    have hF1 : (drawChar sx y d1 c).Face = (drawChar sx y d2 c).Face := by
      rw [drawChar_Face, drawChar_Face, hF]
    have hS1 : (drawChar sx y d1 c).Src = (drawChar sx y d2 c).Src := by
      rw [drawChar_Src, drawChar_Src, hS]
    have hX1 : (drawChar sx y d1 c).Dot.X = (drawChar sx y d2 c).Dot.X := by
      rw [drawChar_DotX, drawChar_DotX, hX, MeasureString_congr hF, MeasureString_congr hF]
    obtain ⟨h1, h2, h3, ops, h4, h5⟩ := ih _ _ hF1 hX1 hS1
    refine ⟨h1, h2, h3, ?_⟩
    simp only [List.foldl_cons]
    rw [h4, h5, drawChar_Dst, drawChar_Dst, hX, hS, MeasureString_congr hF]
    exact ⟨_, (List.append_assoc _ _ _), (List.append_assoc _ _ _)⟩

theorem foldl_drawChar_Face (sx y : Int) (cs : List Char) (d : Drawer) :
    (cs.foldl (drawChar sx y) d).Face = d.Face := by
  induction cs generalizing d with
  | nil => rfl
  | cons c cs ih => simp only [List.foldl_cons]; rw [ih, drawChar_Face]

theorem foldl_drawChar_Src (sx y : Int) (cs : List Char) (d : Drawer) :
    (cs.foldl (drawChar sx y) d).Src = d.Src := by
  induction cs generalizing d with
  | nil => rfl
  | cons c cs ih => simp only [List.foldl_cons]; rw [ih, drawChar_Src]

/-- What the character loop appends to the destination: every painted character, in order,
as a one-character string, all at height `y` and with the source the loop starts with. -/
theorem foldl_drawChar_Dst (sx y : Int) (cs : List Char) (d : Drawer) :
    ∃ ops, (cs.foldl (drawChar sx y) d).Dst = d.Dst ++ ops ∧
      ops.map PaintOp.text = (cs.filter painted).map (fun c => [c]) ∧
      ops.map PaintOp.src = List.replicate (cs.filter painted).length d.Src ∧
      ops.map (fun op => op.dot.Y) = List.replicate (cs.filter painted).length y := by
  induction cs generalizing d with
  | nil => exact ⟨[], by simp⟩
  | cons c cs ih =>
    obtain ⟨ops, h1, h2, h3, h4⟩ := ih (drawChar sx y d c)
    simp only [List.foldl_cons]
    rw [h1, drawChar_Dst, List.append_assoc]
    refine ⟨_, rfl, ?_⟩
    rw [drawChar_Src] at h3
    by_cases hp : painted c = true
    · simp [hp, h2, h3, h4, List.replicate_succ]
    · simp [hp, h2, h3, h4]

/-! ## The contrast fallback -/

theorem Color.RGBA_le (c : Color) :
    c.RGBA.r ≤ 65535 ∧ c.RGBA.g ≤ 65535 ∧ c.RGBA.b ≤ 65535 ∧ c.RGBA.a ≤ 65535 := by
  cases c <;> simp only [Color.RGBA] <;> omega

theorem sqDiff_zero (x : Nat) (hx : x ≤ 65535) : sqDiff x 0 = x * x / 4 := by
  have hxx : x * x ≤ 65535 * 65535 := Nat.mul_le_mul hx hx
  have hd : (x % 4294967296 + 4294967296 - 0 % 4294967296) % 4294967296 = x := by omega
  unfold sqDiff
  simp only [hd]
  rw [Nat.mod_eq_of_lt (by omega)]

theorem sqDiff_max (x : Nat) (hx : x ≤ 65535) :
    sqDiff x 65535 = (65535 - x) * (65535 - x) / 4 := by
  obtain ⟨k, hk⟩ : ∃ k, k = 65535 - x := ⟨_, rfl⟩
  have hkk : k * k ≤ 65535 * 65535 := Nat.mul_le_mul (by omega) (by omega)
  rcases Nat.eq_zero_or_pos k with h0 | hpos
  · have hd : (x % 4294967296 + 4294967296 - 65535 % 4294967296) % 4294967296 = 0 := by omega
    unfold sqDiff
    simp only [hd, ← hk, h0]
  · obtain ⟨e, he⟩ : ∃ e, e = 4294967296 - k := ⟨_, rfl⟩
    have hd : (x % 4294967296 + 4294967296 - 65535 % 4294967296) % 4294967296 = e := by omega
    have hee : e * e = 4294967296 * (4294967296 - 2 * k) + k * k := by
      have h1 : (e : Int) = 4294967296 - k := by omega
      have h2 : ((4294967296 - 2 * k : Nat) : Int) = 4294967296 - 2 * k := by omega
      have h3 : ((e * e : Nat) : Int) = ((4294967296 * (4294967296 - 2 * k) + k * k : Nat) : Int) := by
        push_cast
        rw [h2, h1]
        ring
      exact_mod_cast h3
    unfold sqDiff
    simp only [hd, ← hk]
    rw [hee, Nat.mul_add_mod, Nat.mod_eq_of_lt (by omega)]

theorem sq_compl (x : Nat) (hx : x ≤ 65535) :
    (65535 - x) * (65535 - x) + 131070 * x = 4294836225 + x * x := by
  obtain ⟨k, hk⟩ : ∃ k, k = 65535 - x := ⟨_, rfl⟩
  have h1 : (k : Int) = 65535 - x := by omega
  have h3 : ((k * k + 131070 * x : Nat) : Int) = ((4294836225 + x * x : Nat) : Int) := by
    push_cast
    rw [h1]
    ring
  rw [← hk]
  exact_mod_cast h3

theorem indexLoop_black_white (r g b a : Nat) (hr : r ≤ 65535) (hg : g ≤ 65535)
    (hb : b ≤ 65535) (ha : a ≤ 65535) :
    color.Palette.indexLoop ⟨r, g, b, a⟩ [color.Black, color.White] 0 0 4294967295 =
      if 2 * (r + g + b) < 3 * 65535 then 0 else 1 := by
  simp only [color.Palette.indexLoop, color.Black, color.White, Color.RGBA]
  norm_num only [Nat.zero_mod, Nat.mod_self]
  rw [sqDiff_zero r hr, sqDiff_zero g hg, sqDiff_zero b hb, sqDiff_max r hr, sqDiff_max g hg,
    sqDiff_max b hb, sqDiff_max a ha]
  have h1 := sq_compl r hr
  have h2 := sq_compl g hg
  have h3 := sq_compl b hb
  have k1 : r * r ≤ 65535 * 65535 := Nat.mul_le_mul hr hr
  have k2 : g * g ≤ 65535 * 65535 := Nat.mul_le_mul hg hg
  have k3 : b * b ≤ 65535 * 65535 := Nat.mul_le_mul hb hb
  have k4 : (65535 - a) * (65535 - a) ≤ 65535 * 65535 :=
    Nat.mul_le_mul (Nat.sub_le _ _) (Nat.sub_le _ _)
  have k5 : (65535 - r) * (65535 - r) ≤ 65535 * 65535 :=
    Nat.mul_le_mul (Nat.sub_le _ _) (Nat.sub_le _ _)
  have k6 : (65535 - g) * (65535 - g) ≤ 65535 * 65535 :=
    Nat.mul_le_mul (Nat.sub_le _ _) (Nat.sub_le _ _)
  have k7 : (65535 - b) * (65535 - b) ≤ 65535 * 65535 :=
    Nat.mul_le_mul (Nat.sub_le _ _) (Nat.sub_le _ _)
  generalize r * r = A at *
  generalize g * g = B at *
  generalize b * b = C at *
  generalize (65535 - r) * (65535 - r) = A1 at *
  generalize (65535 - g) * (65535 - g) = B1 at *
  generalize (65535 - b) * (65535 - b) = C1 at *
  generalize (65535 - a) * (65535 - a) = D1 at *
  have hSb : (A / 4 + B / 4 + C / 4 + D1 / 4) % 4294967296 = A / 4 + B / 4 + C / 4 + D1 / 4 :=
    Nat.mod_eq_of_lt (by omega)
  have hSw : (A1 / 4 + B1 / 4 + C1 / 4 + D1 / 4) % 4294967296
      = A1 / 4 + B1 / 4 + C1 / 4 + D1 / 4 :=
    Nat.mod_eq_of_lt (by omega)
  rw [hSb, hSw]
  have hlt : A / 4 + B / 4 + C / 4 + D1 / 4 < 4294967295 := by omega
  by_cases hS : 2 * (r + g + b) < 196605
  · have key : A / 4 + B / 4 + C / 4 < A1 / 4 + B1 / 4 + C1 / 4 := by omega
    rw [if_pos hS, if_pos hlt]
    split_ifs <;> first | rfl | omega
  · have key : A1 / 4 + B1 / 4 + C1 / 4 < A / 4 + B / 4 + C / 4 := by omega
    rw [if_neg hS, if_pos hlt]
    split_ifs <;> first | rfl | omega

theorem distSq_white_sub_black (ch : Channels) :
    distSq ch color.White.RGBA - distSq ch color.Black.RGBA
      = 65535 * (196605 - 2 * ((ch.r : Int) + ch.g + ch.b)) := by
  simp only [distSq, color.White, color.Black, Color.RGBA]
  norm_num
  ring

theorem chooseColorBasedOnContrast_eq (bg : Color) :
    chooseColorBasedOnContrast bg =
      if 2 * (bg.RGBA.r + bg.RGBA.g + bg.RGBA.b) < 3 * 65535 then color.White
      else color.Black := by
  obtain ⟨hr, hg, hb, ha⟩ := Color.RGBA_le bg
  unfold chooseColorBasedOnContrast color.Palette.Index
  have h := indexLoop_black_white bg.RGBA.r bg.RGBA.g bg.RGBA.b bg.RGBA.a hr hg hb ha
  simp only [h]
  split_ifs <;> simp_all

/-- C2.  For every background colour (its four 16-bit channels lie in 0..65535): when the
background is strictly nearer, in Euclidean distance over the four RGBA channels, to opaque
black than to opaque white, `chooseColorBasedOnContrast` returns white; when it is strictly
nearer to opaque white, it returns black; in every case it returns black or white. -/
theorem chooseColorBasedOnContrast_nearest (bg : Color) :
    (distSq bg.RGBA color.Black.RGBA < distSq bg.RGBA color.White.RGBA →
      chooseColorBasedOnContrast bg = color.White) ∧
    (distSq bg.RGBA color.White.RGBA < distSq bg.RGBA color.Black.RGBA →
      chooseColorBasedOnContrast bg = color.Black) ∧
    (chooseColorBasedOnContrast bg = color.Black ∨
      chooseColorBasedOnContrast bg = color.White) := by
  have h := distSq_white_sub_black bg.RGBA
  rw [chooseColorBasedOnContrast_eq]
  refine ⟨fun hlt => ?_, fun hlt => ?_, ?_⟩
  · rw [if_pos (by omega)]
  · rw [if_neg (by omega)]
  · split_ifs
    · exact Or.inr rfl
    · exact Or.inl rfl

theorem chooseColorBasedOnContrast_nearest_witness :
    chooseColorBasedOnContrast (.rgba 0 0 40 255) = color.White ∧
    chooseColorBasedOnContrast (.rgba 250 250 250 255) = color.Black :=
  ⟨(chooseColorBasedOnContrast_nearest (.rgba 0 0 40 255)).1 (by decide),
   (chooseColorBasedOnContrast_nearest (.rgba 250 250 250 255)).2.1 (by decide)⟩

/-! ## Tokens -/

theorem tokenColor_eq_specResolve (style : Style) (bg : Color) (t : Token) :
    tokenColor style bg t = specResolve (styleLookup style) bg t.ttype := by
  unfold tokenColor specResolve styleLookup
  by_cases h1 : (style.Get t.ttype).Colour = 0
  · by_cases h2 : (style.Get chroma.Text).Colour = 0
    · simp [h1, h2]
    · simp [h1, h2]
  · simp [h1]

theorem drawToken_Face (style : Style) (bg : Color) (sx y : Int) (d : Drawer) (t : Token) :
    (drawToken style bg sx y d t).Face = d.Face := by
  unfold drawToken
  rw [foldl_drawChar_Face]

/-- What a token appends to the destination. -/
theorem drawToken_Dst (style : Style) (bg : Color) (sx y : Int) (d : Drawer) (t : Token) :
    ∃ ops, (drawToken style bg sx y d t).Dst = d.Dst ++ ops ∧
      ops.map PaintOp.text = (t.Value.filter painted).map (fun c => [c]) ∧
      ops.map PaintOp.src
        = List.replicate (t.Value.filter painted).length (tokenColor style bg t) ∧
      ops.map (fun op => op.dot.Y) = List.replicate (t.Value.filter painted).length y := by
  unfold drawToken
  exact foldl_drawChar_Dst sx y t.Value _

/-- C1.  For every style table, background colour and token, the colour computed for the
token is the one the three-tier resolution of the specification gives for its type: the opaque
colour of the type when the style table sets one, otherwise the opaque colour of the generic
Text type when set, otherwise the contrast fallback.  The token paints exactly its characters
other than newline and tab, one operation per character and in order, and every one of them
with that single colour. -/
theorem token_painted_in_resolved_colour (style : Style) (bg : Color) (sx y : Int)
    (d : Drawer) (t : Token) :
    tokenColor style bg t = specResolve (styleLookup style) bg t.ttype ∧
    (specResolve (styleLookup style) bg t.ttype =
      if (style.Get t.ttype).Colour ≠ 0 then
        .rgba (style.Get t.ttype).Colour.Red (style.Get t.ttype).Colour.Green
          (style.Get t.ttype).Colour.Blue 255
      else if (style.Get chroma.Text).Colour ≠ 0 then
        .rgba (style.Get chroma.Text).Colour.Red (style.Get chroma.Text).Colour.Green
          (style.Get chroma.Text).Colour.Blue 255
      else chooseColorBasedOnContrast bg) ∧
    ∃ ops, (drawToken style bg sx y d t).Dst = d.Dst ++ ops ∧
      ops.map PaintOp.text = (t.Value.filter painted).map (fun c => [c]) ∧
      ops.map PaintOp.src = List.replicate (t.Value.filter painted).length
        (specResolve (styleLookup style) bg t.ttype) := by
  refine ⟨tokenColor_eq_specResolve style bg t, ?_, ?_⟩
  · unfold specResolve styleLookup
    by_cases h1 : (style.Get t.ttype).Colour = 0
    · by_cases h2 : (style.Get chroma.Text).Colour = 0
      · simp [h1, h2]
      · simp [h1, h2]
    · simp [h1]
  · obtain ⟨ops, h1, h2, h3, _⟩ := drawToken_Dst style bg sx y d t
    exact ⟨ops, h1, h2, by rw [h3, tokenColor_eq_specResolve]⟩

/-! ## The pen on a painted character -/

/-- On a character that is painted, the pen's x moves by the measured advance and, on top of
it, by the advance rounded to whole pixels taken as a number of 1/64 pixels. -/
theorem drawChar_painted_DotX (sx y : Int) (d : Drawer) (c : Char) (hc : painted c = true) :
    (drawChar sx y d c).Dot.X
      = wrap32 (d.Dot.X + Int26_6.Round (d.MeasureString [c]) + d.MeasureString [c]) := by
  have h1 : c ≠ '\n' := by rintro rfl; simp [painted] at hc
  have h2 : c ≠ '\t' := by rintro rfl; simp [painted] at hc
  rw [drawChar_DotX, if_neg h1, if_neg h2]

/-- C3, evaluated.  On a face that measures every glyph at 7 pixels (448 units), processing the
character `i` with the pen at x = 448 moves the pen by 455 units, not by the 448 measured. -/
theorem drawChar_net_advance_monoFace :
    ({ drawerA with Dot := ⟨448, 640⟩ } : Drawer).MeasureString ['i'] = 448 ∧
    (drawChar 448 640 { drawerA with Dot := ⟨448, 640⟩ } 'i').Dot.X - 448 = 455 ∧
    (drawChar 448 640 { drawerA with Dot := ⟨448, 640⟩ } 'i').Dot.X - 448
      ≠ ({ drawerA with Dot := ⟨448, 640⟩ } : Drawer).MeasureString ['i'] := by
  decide

/-- C4, evaluated.  Scenario A: one line `[(Keyword, "if"), (Text, " x")]`, no line numbers,
start point (0, 0), every glyph 7 pixels wide.  The text start `sx` is 448, but `i` is painted
at x = 455; `f` leaves the pen at 910 + 448 = 1358, but the next token starts at 1365. -/
theorem format_scenarioA_positions :
    formatterA.sx drawerA 1 = 448 ∧
    (formatterA.format drawerA styleA (.rgba 0 0 0 255) (fun _ => (none : Option Unit))
        [lineA]).1.Dst.map (fun op => (op.text, op.dot.X))
      = [(['i'], 455), (['f'], 910), ([' '], 1365), (['x'], 1820)] ∧
    ((formatterA.format drawerA styleA (.rgba 0 0 0 255) (fun _ => (none : Option Unit))
        [lineA]).1.Dst.head?.map (fun op => op.dot.X)) ≠ some (formatterA.sx drawerA 1) := by
  decide

/-! ## Decimal digits -/

theorem toDigitsCore_eq_digits (fuel : Nat) :
    ∀ (n : Nat) (ds : List Char), n < fuel → 0 < n →
      Nat.toDigitsCore 10 fuel n ds = (Nat.digits 10 n).reverse.map Nat.digitChar ++ ds := by
  induction fuel with
  | zero => intro n ds h; omega
  | succ fuel ih =>
    intro n ds hlt hpos
    rw [Nat.digits_def' (by norm_num) hpos]
    simp only [Nat.toDigitsCore]
    by_cases h0 : n / 10 = 0
    · simp [h0]
    · rw [if_neg h0, ih (n / 10) _ (by omega) (by omega)]
      simp

/-- `strconv.Itoa` produces the decimal digits of a positive number, most significant first. -/
theorem Itoa_eq_digits (n : Nat) (h : 0 < n) :
    strconv.Itoa n = (Nat.digits 10 n).reverse.map Nat.digitChar := by
  unfold strconv.Itoa Nat.toDigits
  rw [toDigitsCore_eq_digits (n + 1) n [] (by omega) h]
  simp

theorem Itoa_length_mono {k n : Nat} (hk : 0 < k) (hkn : k ≤ n) :
    (strconv.Itoa k).length ≤ (strconv.Itoa n).length := by
  rw [Itoa_eq_digits k hk, Itoa_eq_digits n (by omega)]
  simpa using Nat.le_digits_len_le 10 k n hkn

/-! ## Lines -/

/-- What the token loop of a line appends to the destination: the painted characters of its
tokens, in order, all at height `y`. -/
theorem foldl_drawToken_Dst (style : Style) (bg : Color) (sx y : Int) (tokens : List Token)
    (d : Drawer) :
    ∃ ops, (tokens.foldl (drawToken style bg sx y) d).Dst = d.Dst ++ ops ∧
      ops.map PaintOp.text
        = ((tokens.map Token.Value).flatten.filter painted).map (fun c => [c]) ∧
      ops.map (fun op => op.dot.Y) = List.replicate ops.length y := by
  induction tokens generalizing d with
  | nil => exact ⟨[], by simp⟩
  | cons t ts ih =>
    obtain ⟨ops1, h1, h2, _, h4⟩ := drawToken_Dst style bg sx y d t
    obtain ⟨ops2, k1, k2, k3⟩ := ih (drawToken style bg sx y d t)
    refine ⟨ops1 ++ ops2, ?_, ?_, ?_⟩
    · simp only [List.foldl_cons]
      rw [k1, h1, List.append_assoc]
    · simp [h2, k2]
    · have hl : ops1.length = (t.Value.filter painted).length := by
        simpa using congrArg List.length h2
      rw [List.map_append, h4, k3, List.length_append, ← hl, List.replicate_add]

theorem foldl_drawToken_Face (style : Style) (bg : Color) (sx y : Int) (tokens : List Token)
    (d : Drawer) : (tokens.foldl (drawToken style bg sx y) d).Face = d.Face := by
  induction tokens generalizing d with
  | nil => rfl
  | cons t ts ih => simp only [List.foldl_cons]; rw [ih, drawToken_Face]

/-- The text start in closed form. -/
theorem sx_eq (f : PNGFormatter) (d : Drawer) (nlines : Nat) :
    f.sx d nlines = wrap32 (f.startPoint.X * 64 + d.MeasureString [' '] +
      (if f.hasLineNum then
        64 * (Int26_6.Round (d.MeasureString [' ']) * ((strconv.Itoa nlines).length + 1))
      else 0)) := by
  unfold PNGFormatter.sx PNGFormatter.left fixed.I
  generalize Int26_6.Round (d.MeasureString [' ']) * (((strconv.Itoa nlines).length : Int) + 1)
    = g
  generalize d.MeasureString [' '] = m
  cases f.hasLineNum
  · simp only [Bool.false_eq_true, if_false, add_zero]
    unfold wrap32
    omega
  · simp only [if_true]
    unfold wrap32
    omega

theorem MeasureString_inInt32 (d : Drawer) (s : List Char) : inInt32 (d.MeasureString s) :=
  inInt32_wrap32 _

theorem Round_whole_pixels (m : Int) (hm : inInt32 m) (h64 : 64 ∣ m) :
    64 * Int26_6.Round m = m := by
  obtain ⟨p, rfl⟩ := h64
  unfold Int26_6.Round wrap32
  unfold inInt32 at hm
  omega

/-! ## The text start and the gutter -/

/-- C5, as stated, fails.  Three lines with line numbers, start point (0, 0), a space that
measures 7.5 pixels (480 units): the text start is 480 + 2 * 8 * 64 = 1504, whereas one space
plus (digits + 1) = 2 measured space advances is 1440. -/
theorem sx_gutter_not_measured_advance :
    formatterB.sx { drawerA with Face := halfPixelFace } 3 = 1504 ∧
    formatterB.startPoint.X * 64
        + ({ drawerA with Face := halfPixelFace } : Drawer).MeasureString [' ']
        + ((strconv.Itoa 3).length + 1)
          * ({ drawerA with Face := halfPixelFace } : Drawer).MeasureString [' '] = 1440 ∧
    formatterB.sx { drawerA with Face := halfPixelFace } 3
      ≠ formatterB.startPoint.X * 64
        + ({ drawerA with Face := halfPixelFace } : Drawer).MeasureString [' ']
        + ((strconv.Itoa 3).length + 1)
          * ({ drawerA with Face := halfPixelFace } : Drawer).MeasureString [' '] := by
  decide

/-- C5, amended.  In 26.6 fixed-point (`int32`) arithmetic the text start `sx` is
`startPoint.x * 64` plus the measured advance of one space; with line numbers on it
additionally includes the gutter width, which is (number of decimal digits of `len(lines)`
+ 1) times the space advance rounded to the nearest whole pixel, `64 * Round(advance)`.  When
the measured space advance is a whole number of pixels, the gutter width is that many
measured space advances. -/
theorem sx_closed_form (f : PNGFormatter) (d : Drawer) (nlines : Nat) :
    f.sx d nlines = wrap32 (f.startPoint.X * 64 + d.MeasureString [' '] +
      (if f.hasLineNum then
        64 * (Int26_6.Round (d.MeasureString [' ']) * ((strconv.Itoa nlines).length + 1))
      else 0)) ∧
    ((64 : Int) ∣ d.MeasureString [' '] →
      64 * (Int26_6.Round (d.MeasureString [' ']) * ((strconv.Itoa nlines).length + 1))
        = ((strconv.Itoa nlines).length + 1) * d.MeasureString [' ']) := by
  refine ⟨sx_eq f d nlines, fun h64 => ?_⟩
  have h := Round_whole_pixels _ (MeasureString_inInt32 d [' ']) h64
  calc 64 * (Int26_6.Round (d.MeasureString [' ']) * (((strconv.Itoa nlines).length : Int) + 1))
      = (((strconv.Itoa nlines).length : Int) + 1)
          * (64 * Int26_6.Round (d.MeasureString [' '])) := by ring
    _ = _ := by rw [h]

theorem sx_closed_form_witness :
    (64 : Int) ∣ drawerA.MeasureString [' '] ∧
    64 * (Int26_6.Round (drawerA.MeasureString [' ']) * (((strconv.Itoa 3).length : Int) + 1))
      = (((strconv.Itoa 3).length : Int) + 1) * drawerA.MeasureString [' '] :=
  ⟨by decide, (sx_closed_form formatterB drawerA 3).2 (by decide)⟩

/-! ## Line-number labels -/

/-- C7.  The field width of the line-number format is the number of decimal digits of the
number of lines plus one; 9, 10, 99 and 100 have 1, 2, 2 and 3 digits.  For `n ≥ 1` lines and
every line with 0-based index `i < n`, the label drawn for it is the decimal representation of
`i + 1` preceded by spaces (at least one), and has exactly `digits(n) + 1` characters. -/
theorem line_number_label (n i : Nat) (hi : i < n) :
    labelWidth n = (Nat.digits 10 n).length + 1 ∧
    ((strconv.Itoa 9).length = 1 ∧ (strconv.Itoa 10).length = 2 ∧
      (strconv.Itoa 99).length = 2 ∧ (strconv.Itoa 100).length = 3) ∧
    strconv.Itoa (i + 1) = (Nat.digits 10 (i + 1)).reverse.map Nat.digitChar ∧
    (∃ pad, 0 < pad ∧
      sprintfPadded (labelWidth n) (i + 1) = List.replicate pad ' ' ++ strconv.Itoa (i + 1)) ∧
    (sprintfPadded (labelWidth n) (i + 1)).length = (Nat.digits 10 n).length + 1 ∧
    ∀ (f : PNGFormatter) (bg : Color) (y : Int) (d : Drawer), f.hasLineNum = true →
      ∃ op, (f.drawLineNumber bg n i y d).Dst = d.Dst ++ [op] ∧
        op.text = sprintfPadded (labelWidth n) (i + 1) := by
  have hn : 0 < n := by omega
  have hlen : (strconv.Itoa n).length = (Nat.digits 10 n).length := by
    rw [Itoa_eq_digits n hn]; simp
  have hmono : (strconv.Itoa (i + 1)).length ≤ (strconv.Itoa n).length :=
    Itoa_length_mono (Nat.succ_pos i) hi
  refine ⟨?_, by decide, Itoa_eq_digits _ (Nat.succ_pos i), ?_, ?_, ?_⟩
  · unfold labelWidth; rw [hlen]
  · exact ⟨labelWidth n - (strconv.Itoa (i + 1)).length, by unfold labelWidth; omega, rfl⟩
  · unfold sprintfPadded labelWidth
    rw [List.length_append, List.length_replicate, ← hlen]
    omega
  · intro f bg y d hf
    refine ⟨⟨sprintfPadded (labelWidth n) (i + 1), ⟨f.left, y⟩,
      chooseColorBasedOnContrast bg⟩, ?_, rfl⟩
    unfold PNGFormatter.drawLineNumber Drawer.DrawString
    simp only [hf, if_true]

theorem line_number_label_witness :
    (sprintfPadded (labelWidth 12) (6 + 1)).length = (Nat.digits 10 12).length + 1 :=
  (line_number_label 12 6 (by decide)).2.2.2.2.1

/-! ## Tabs and newlines -/

/-- C8, as stated, fails.  On a face that measures every glyph at 448 units and kerns adjacent
glyphs apart by 10 units, a tab with the pen at x = 903 moves the pen by the measure of the
four-space string, 1822 units, whereas four times the measured advance of one space is 1792. -/
theorem tab_advance_is_not_four_single_spaces :
    ({ drawerA with Face := kernedFace, Dot := ⟨903, 640⟩ } : Drawer).MeasureString [' '] = 448 ∧
    (drawChar 448 640 { drawerA with Face := kernedFace, Dot := ⟨903, 640⟩ } '\t').Dot.X - 903
      = 1822 ∧
    (drawChar 448 640 { drawerA with Face := kernedFace, Dot := ⟨903, 640⟩ } '\t').Dot.X - 903
      ≠ 4 * ({ drawerA with Face := kernedFace, Dot := ⟨903, 640⟩ } : Drawer).MeasureString
          [' '] := by
  decide

/-- C8, amended.  On a tab nothing is painted, the pen's y and the paint source are unchanged,
and the pen's x increases, in 26.6 fixed-point (`int32`) arithmetic, by exactly the measured
advance of the string of four spaces.  On a glyph engine that measures the string of four
spaces as four times one space, that is four times the measured advance of one space. -/
theorem tab_advances_by_four_space_string (sx y : Int) (d : Drawer) :
    (drawChar sx y d '\t').Dot.X = wrap32 (d.Dot.X + d.MeasureString [' ', ' ', ' ', ' ']) ∧
    (drawChar sx y d '\t').Dst = d.Dst ∧
    (drawChar sx y d '\t').Dot.Y = d.Dot.Y ∧
    (drawChar sx y d '\t').Src = d.Src ∧
    (d.MeasureString [' ', ' ', ' ', ' '] = 4 * d.MeasureString [' '] →
      (drawChar sx y d '\t').Dot.X = wrap32 (d.Dot.X + 4 * d.MeasureString [' '])) := by
  have hX : (drawChar sx y d '\t').Dot.X
      = wrap32 (d.Dot.X + d.MeasureString [' ', ' ', ' ', ' ']) := by
    rw [drawChar_DotX, if_neg (by decide), if_pos rfl]
  refine ⟨hX, ?_, ?_, drawChar_Src sx y d '\t', fun h4 => ?_⟩
  · rw [drawChar_Dst]; simp [painted]
  · unfold drawChar; simp
  · rw [hX, h4]

theorem tab_advances_by_four_space_string_witness :
    drawerA.MeasureString [' ', ' ', ' ', ' '] = 4 * drawerA.MeasureString [' '] ∧
    (drawChar 448 640 drawerA '\t').Dot.X
      = wrap32 (drawerA.Dot.X + 4 * drawerA.MeasureString [' ']) :=
  ⟨by decide, (tab_advances_by_four_space_string 448 640 drawerA).2.2.2.2 (by decide)⟩

/-- C9.  On a newline inside a token's text the pen's x becomes the text start `sx` of the
line, whatever it was; nothing is painted and the pen's y and the paint source are unchanged.
Everything the token loop of a line paints, before or after such a newline, is painted at the
height `y` of the line. -/
theorem newline_resets_pen_x (sx y : Int) (d : Drawer) :
    (drawChar sx y d '\n').Dot.X = sx ∧
    (drawChar sx y d '\n').Dst = d.Dst ∧
    (drawChar sx y d '\n').Dot.Y = d.Dot.Y ∧
    (drawChar sx y d '\n').Src = d.Src ∧
    ∀ (style : Style) (bg : Color) (tokens : List Token),
      ∃ ops, (tokens.foldl (drawToken style bg sx y) d).Dst = d.Dst ++ ops ∧
        ops.map (fun op => op.dot.Y) = List.replicate ops.length y := by
  refine ⟨?_, ?_, ?_, drawChar_Src sx y d '\n', fun style bg tokens => ?_⟩
  · rw [drawChar_DotX, if_pos rfl]
  · rw [drawChar_Dst]; simp [painted]
  · unfold drawChar; simp
  · obtain ⟨ops, h1, _, h3⟩ := foldl_drawToken_Dst style bg sx y tokens d
    exact ⟨ops, h1, h3⟩

/-! ## The line loop -/

theorem drawToken_sim (style : Style) (bg : Color) (sx y : Int) (t : Token) (d1 d2 : Drawer)
    (hF : d1.Face = d2.Face) (hX : d1.Dot.X = d2.Dot.X) :
    (drawToken style bg sx y d1 t).Face = (drawToken style bg sx y d2 t).Face ∧
    (drawToken style bg sx y d1 t).Dot.X = (drawToken style bg sx y d2 t).Dot.X ∧
    ∃ ops, (drawToken style bg sx y d1 t).Dst = d1.Dst ++ ops ∧
      (drawToken style bg sx y d2 t).Dst = d2.Dst ++ ops := by
  unfold drawToken
  obtain ⟨h1, h2, _, h4⟩ := foldl_drawChar_sim sx y t.Value
    { d1 with Src := tokenColor style bg t } { d2 with Src := tokenColor style bg t } hF hX rfl
  exact ⟨h1, h2, h4⟩

theorem foldl_drawToken_sim (style : Style) (bg : Color) (sx y : Int) (tokens : List Token) :
    ∀ d1 d2 : Drawer, d1.Face = d2.Face → d1.Dot.X = d2.Dot.X →
      ∃ ops, (tokens.foldl (drawToken style bg sx y) d1).Dst = d1.Dst ++ ops ∧
        (tokens.foldl (drawToken style bg sx y) d2).Dst = d2.Dst ++ ops := by
  induction tokens with
  | nil => intro d1 d2 _ _; exact ⟨[], by simp, by simp⟩
  | cons t ts ih =>
    intro d1 d2 hF hX
    obtain ⟨h1, h2, ops1, h3, h4⟩ := drawToken_sim style bg sx y t d1 d2 hF hX
    obtain ⟨ops2, k1, k2⟩ := ih _ _ h1 h2
    refine ⟨ops1 ++ ops2, ?_, ?_⟩
    · simp only [List.foldl_cons]; rw [k1, h3, List.append_assoc]
    · simp only [List.foldl_cons]; rw [k2, h4, List.append_assoc]

/-- The token loop of a line, entered with the pen at `sx`, appends `lineGlyphs` to the
destination, whatever the destination, the pen's y and the paint source were. -/
theorem foldl_drawToken_lineGlyphs (style : Style) (bg : Color) (sx y : Int)
    (tokens : List Token) (d : Drawer) (hX : d.Dot.X = sx) :
    (tokens.foldl (drawToken style bg sx y) d).Dst
      = d.Dst ++ lineGlyphs style bg d.Face sx y tokens := by
  obtain ⟨ops, h1, h2⟩ := foldl_drawToken_sim style bg sx y tokens d
    ⟨[], color.Black, d.Face, ⟨sx, y⟩⟩ rfl hX
  unfold lineGlyphs
  rw [h1, h2, List.nil_append]

theorem drawLineNumber_Face (f : PNGFormatter) (bg : Color) (nlines i : Nat) (y : Int)
    (d : Drawer) : (f.drawLineNumber bg nlines i y d).Face = d.Face := by
  unfold PNGFormatter.drawLineNumber Drawer.DrawString
  split_ifs <;> rfl

theorem drawLineNumber_Dst (f : PNGFormatter) (bg : Color) (nlines i : Nat) (y : Int)
    (d : Drawer) :
    (f.drawLineNumber bg nlines i y d).Dst = d.Dst ++ f.labelOps bg nlines i y := by
  unfold PNGFormatter.labelOps PNGFormatter.drawLineNumber Drawer.DrawString
  split_ifs <;> simp

theorem labelOps_eq (f : PNGFormatter) (bg : Color) (nlines i : Nat) (y : Int) :
    f.labelOps bg nlines i y =
      if f.hasLineNum then
        [⟨sprintfPadded (labelWidth nlines) (i + 1), ⟨f.left, y⟩,
          chooseColorBasedOnContrast bg⟩]
      else [] := by
  unfold PNGFormatter.labelOps PNGFormatter.drawLineNumber Drawer.DrawString
  split_ifs <;> simp

theorem sx_congr (f : PNGFormatter) (nlines : Nat) {d1 d2 : Drawer} (hF : d1.Face = d2.Face) :
    f.sx d1 nlines = f.sx d2 nlines := by
  unfold PNGFormatter.sx
  rw [MeasureString_congr hF]

theorem formatLine_Face (f : PNGFormatter) (style : Style) (bg : Color) (nlines i : Nat)
    (y : Int) (d : Drawer) (tokens : List Token) :
    (f.formatLine style bg nlines i y d tokens).Face = d.Face := by
  unfold PNGFormatter.formatLine
  simp only [foldl_drawToken_Face]
  exact drawLineNumber_Face f bg nlines i y d

/-- One iteration of the line loop appends the label, if any, and then the glyphs of the line,
entered at a text start that depends on the face and the number of lines only. -/
theorem formatLine_Dst (f : PNGFormatter) (style : Style) (bg : Color) (nlines i : Nat)
    (y : Int) (d : Drawer) (tokens : List Token) :
    (f.formatLine style bg nlines i y d tokens).Dst
      = d.Dst ++ (f.labelOps bg nlines i y
          ++ lineGlyphs style bg d.Face (f.sx d nlines) y tokens) := by
  have hF := drawLineNumber_Face f bg nlines i y d
  have key := foldl_drawToken_lineGlyphs style bg
    (f.sx (f.drawLineNumber bg nlines i y d) nlines) y tokens
    { f.drawLineNumber bg nlines i y d with
      Dot := ⟨f.sx (f.drawLineNumber bg nlines i y d) nlines,
        (f.drawLineNumber bg nlines i y d).Dot.Y⟩ } rfl
  unfold PNGFormatter.formatLine
  refine key.trans ?_
  simp only [drawLineNumber_Dst, hF, sx_congr f nlines hF, List.append_assoc]

theorem formatLoop_Face (f : PNGFormatter) (style : Style) (bg : Color) (nlines : Nat)
    (lines : List (List Token)) :
    ∀ (i : Nat) (y : Int) (d : Drawer),
      (f.formatLoop style bg nlines i y d lines).2.Face = d.Face := by
  induction lines with
  | nil => intro i y d; rfl
  | cons tokens rest ih =>
    intro i y d
    simp only [PNGFormatter.formatLoop]
    rw [ih, formatLine_Face]

theorem formatLoop_Dst (f : PNGFormatter) (style : Style) (bg : Color) (nlines : Nat)
    (lines : List (List Token)) :
    ∀ (i : Nat) (y : Int) (d : Drawer),
      (f.formatLoop style bg nlines i y d lines).2.Dst = d.Dst ++
        ((lines.enumFrom i).map (fun p =>
          f.labelOps bg nlines p.1 (f.yIter i y (p.1 - i))
            ++ lineGlyphs style bg d.Face (f.sx d nlines) (f.yIter i y (p.1 - i)) p.2)).flatten := by
  induction lines with
  | nil => intro i y d; simp [PNGFormatter.formatLoop]
  | cons tokens rest ih =>
    intro i y d
    have hmap : (rest.enumFrom (i + 1)).map (fun p =>
          f.labelOps bg nlines p.1 (f.yIter (i + 1) (f.advanceY i y) (p.1 - (i + 1)))
            ++ lineGlyphs style bg d.Face (f.sx d nlines)
              (f.yIter (i + 1) (f.advanceY i y) (p.1 - (i + 1))) p.2)
        = (rest.enumFrom (i + 1)).map (fun p =>
          f.labelOps bg nlines p.1 (f.yIter i y (p.1 - i))
            ++ lineGlyphs style bg d.Face (f.sx d nlines) (f.yIter i y (p.1 - i)) p.2) := by
      apply List.map_congr_left
      intro p hp
      have hle : i + 1 ≤ p.1 := by
        obtain ⟨a, b⟩ := p
        exact List.le_fst_of_mem_enumFrom hp
      have hk : p.1 - i = (p.1 - (i + 1)) + 1 := by omega
      rw [hk]
      simp only [PNGFormatter.yIter]
    simp only [PNGFormatter.formatLoop, List.enumFrom_cons, List.map_cons, List.flatten_cons,
      Nat.sub_self, PNGFormatter.yIter]
    rw [ih, formatLine_Dst, formatLine_Face,
      sx_congr f nlines (formatLine_Face f style bg nlines i (f.advanceY i y) d tokens), hmap]
    simp only [List.append_assoc]

/-! ## The whole render -/

/-- Everything `format` paints, line by line: the label of the line, if line numbers are on,
followed by the glyphs of the line, at the baseline of the line. -/
theorem format_Dst {E : Type} (f : PNGFormatter) (drawer : Drawer) (style : Style) (bg : Color)
    (encode : List PaintOp → Option E) (lines : List (List Token)) :
    (f.format drawer style bg encode lines).1.Dst = drawer.Dst ++
      (lines.enum.map (fun p =>
        f.labelOps bg lines.length p.1 (f.baseline p.1)
          ++ lineGlyphs style bg drawer.Face (f.sx drawer lines.length)
              (f.baseline p.1) p.2)).flatten := by
  unfold PNGFormatter.format PNGFormatter.baseline
  simp only [formatLoop_Dst, List.enum, Nat.sub_zero]

theorem yIter_succ (f : PNGFormatter) (k : Nat) :
    ∀ (i : Nat) (y : Int), f.yIter i y (k + 1) = f.advanceY (i + k + 1) (f.yIter i y k) := by
  induction k with
  | zero => intro i y; simp [PNGFormatter.yIter]
  | succ k ih =>
    intro i y
    rw [PNGFormatter.yIter, ih (i + 1) (f.advanceY i y)]
    have h : i + 1 + k + 1 = i + (k + 1) + 1 := by omega
    rw [h]
    rfl

theorem formatLoop_y (f : PNGFormatter) (style : Style) (bg : Color) (nlines : Nat)
    (tokens : List Token) (rest : List (List Token)) :
    ∀ (i : Nat) (y : Int) (d : Drawer),
      (f.formatLoop style bg nlines i y d (tokens :: rest)).1 = f.yIter i y rest.length := by
  induction rest generalizing tokens with
  | nil => intro i y d; simp [PNGFormatter.formatLoop, PNGFormatter.yIter]
  | cons t2 rest ih =>
    intro i y d
    rw [PNGFormatter.formatLoop]
    simp only [List.length_cons, PNGFormatter.yIter]
    exact ih t2 (i + 1) _ _

theorem advanceY_first (f : PNGFormatter) (y : Int) :
    f.advanceY 0 y = wrap32 (y + 64 * goInt f.fontSize) := by
  unfold PNGFormatter.advanceY fixed.I wrap32
  simp only [gt_iff_lt, lt_self_iff_false, if_false]
  omega

theorem advanceY_later (f : PNGFormatter) (i : Nat) (y : Int) :
    f.advanceY (i + 1) y
      = wrap32 (y + 64 * (goInt f.fontSize + goInt (f.fontSize * 0.25))) := by
  unfold PNGFormatter.advanceY fixed.I wrap32
  simp only [gt_iff_lt, Nat.succ_pos, if_true]
  omega

theorem goInt_of_nonneg (x : ℚ) (hx : 0 ≤ x) : goInt x = ⌊x⌋ := by
  unfold goInt; rw [if_pos hx]

theorem goInt_ten : goInt 10 = 10 := by norm_num [goInt]

theorem goInt_ten_quarter : goInt (10 * 0.25) = 2 := by norm_num [goInt]

/-- C6, as stated, fails.  With font size 10 and start point (0, 0) the first baseline is at
640 units and the second at 1408: the step is 768 units (12 pixels), not the 800 units (12.5
pixels) that font size plus 25% of it amounts to. -/
theorem baseline_step_truncates_padding :
    formatterA.baseline 0 = 640 ∧ formatterA.baseline 1 - formatterA.baseline 0 = 768 ∧
    (64 : ℚ) * (formatterA.fontSize + 25 / 100 * formatterA.fontSize) = 800 ∧
    ((formatterA.baseline 1 - formatterA.baseline 0 : Int) : ℚ)
      ≠ 64 * (formatterA.fontSize + 25 / 100 * formatterA.fontSize) := by
  have h0 : formatterA.baseline 0 = 640 := by
    unfold PNGFormatter.baseline
    rw [PNGFormatter.yIter, advanceY_first]
    simp only [formatterA, goInt_ten]
    decide
  have h1 : formatterA.baseline 1 = 1408 := by
    have h := yIter_succ formatterA 0 0 (wrap32 (formatterA.startPoint.Y * 64))
    unfold PNGFormatter.baseline at h0 ⊢
    rw [h, h0, advanceY_later]
    simp only [formatterA, goInt_ten, goInt_ten_quarter]
    decide
  refine ⟨h0, ?_, ?_, ?_⟩
  · rw [h1, h0]; rfl
  · norm_num [formatterA]
  · rw [h1, h0]; norm_num [formatterA]

/-- C6, amended.  For every font size > 0 that Go converts to an `int` (font size below
2^63), in 26.6 fixed-point (`int32`) arithmetic: the baseline of the first line is
`startPoint.y` plus the font size truncated to whole pixels, in sub-pixel units, and the
baselines of two consecutive lines differ by the font size truncated to whole pixels plus 25%
of the font size truncated to whole pixels, in sub-pixel units (font size 10 gives a step of 12
pixels = 768 units).  On an input of at least one line the loop ends with `y` at the baseline
of the last line. -/
theorem baseline_steps (f : PNGFormatter) (hfs : 0 < f.fontSize)
    (hmax : f.fontSize < 9223372036854775808) :
    f.baseline 0 = wrap32 (64 * (f.startPoint.Y + ⌊f.fontSize⌋)) ∧
    (∀ i : Nat, f.baseline (i + 1)
      = wrap32 (f.baseline i + 64 * (⌊f.fontSize⌋ + ⌊f.fontSize / 4⌋))) ∧
    ∀ (style : Style) (bg : Color) (d : Drawer) (tokens : List Token)
      (rest : List (List Token)),
      (f.formatLoop style bg (tokens :: rest).length 0 (wrap32 (f.startPoint.Y * 64)) d
        (tokens :: rest)).1 = f.baseline rest.length := by
  have _ := hmax
  have hq : f.fontSize * 0.25 = f.fontSize / 4 := by norm_num; ring
  have h1 : goInt f.fontSize = ⌊f.fontSize⌋ := goInt_of_nonneg _ hfs.le
  have h2 : goInt (f.fontSize * 0.25) = ⌊f.fontSize / 4⌋ := by
    rw [hq]; exact goInt_of_nonneg _ (by positivity)
  refine ⟨?_, fun i => ?_, fun style bg d tokens rest => ?_⟩
  · unfold PNGFormatter.baseline
    rw [PNGFormatter.yIter, advanceY_first, h1]
    unfold wrap32
    omega
  · unfold PNGFormatter.baseline
    rw [yIter_succ, Nat.zero_add, advanceY_later, h1, h2]
  · unfold PNGFormatter.baseline
    exact formatLoop_y f style bg _ tokens rest 0 _ d

theorem baseline_steps_witness :
    formatterA.baseline 0 = wrap32 (64 * (formatterA.startPoint.Y + ⌊formatterA.fontSize⌋)) :=
  (baseline_steps formatterA (by norm_num [formatterA]) (by norm_num [formatterA])).1

/-! ## Line numbers in the render -/

/-- C10.  Everything `format` paints is, line by line in order: with line numbers on, the
label of the line, painted at x = `startPoint.x * 64` (the same for every line), at the
baseline of the line and in the contrast fallback colour, whatever the style table and
whatever was painted before; then the glyphs of the tokens of the line, one single-character
operation per painted character, entered at the text start `sx`, which is the same for every
line.  With line numbers off only the glyphs are painted. -/
theorem format_labels_and_glyphs {E : Type} (f : PNGFormatter) (drawer : Drawer)
    (style : Style) (bg : Color) (encode : List PaintOp → Option E)
    (lines : List (List Token)) :
    (f.format drawer style bg encode lines).1.Dst = drawer.Dst ++
      (lines.enum.map (fun p =>
        (if f.hasLineNum then
          [⟨sprintfPadded (labelWidth lines.length) (p.1 + 1),
            ⟨wrap32 (f.startPoint.X * 64), f.baseline p.1⟩, chooseColorBasedOnContrast bg⟩]
        else [])
          ++ lineGlyphs style bg drawer.Face (f.sx drawer lines.length)
              (f.baseline p.1) p.2)).flatten ∧
    ∀ (sx y : Int) (tokens : List Token),
      (lineGlyphs style bg drawer.Face sx y tokens).map PaintOp.text
        = ((tokens.map Token.Value).flatten.filter painted).map (fun c => [c]) := by
  refine ⟨?_, fun sx y tokens => ?_⟩
  · rw [format_Dst]
    simp only [labelOps_eq, PNGFormatter.left]
  · obtain ⟨ops, h1, h2, _⟩ := foldl_drawToken_Dst style bg sx y tokens
      ⟨[], color.Black, drawer.Face, ⟨sx, y⟩⟩
    unfold lineGlyphs
    rw [h1, List.nil_append]
    exact h2

/-! ## Independence from what the drawer held before the call -/

/-- C11.  What `format` paints is a function of the formatter, the style table, the background,
the face and the lines alone: the same sequence of operations (text, pen position, colour) is
appended to the destination whatever the destination, the pen position `Dot` and the source
`Src` of the drawer were before the call, and whatever the encoder does. -/
theorem format_ops_independent_of_drawer_state (f : PNGFormatter) (style : Style)
    (bg : Color) (face : Face) (lines : List (List Token)) :
    ∃ ops : List PaintOp, ∀ (E : Type) (encode : List PaintOp → Option E)
      (dst : List PaintOp) (src : Color) (dot : Point26_6),
      (f.format ⟨dst, src, face, dot⟩ style bg encode lines).1.Dst = dst ++ ops := by
  refine ⟨(lines.enum.map (fun p =>
      f.labelOps bg lines.length p.1 (f.baseline p.1)
        ++ lineGlyphs style bg face (f.sx ⟨[], color.Black, face, ⟨0, 0⟩⟩ lines.length)
            (f.baseline p.1) p.2)).flatten, ?_⟩
  intro E encode dst src dot
  rw [format_Dst]
  have h : f.sx ⟨dst, src, face, dot⟩ lines.length
      = f.sx ⟨[], color.Black, face, ⟨0, 0⟩⟩ lines.length := sx_congr f lines.length rfl
  simp only [h]

/-! ## Errors -/

/-- C12.  The error `format` returns is exactly what the encoder returns on the final
destination: `format` fails if and only if the encoder fails, with the encoder's error, and
`Format` returns what `format` returns.  The render itself is a total function of its input:
the encoder is always reached, with the destination and everything painted on it; on the
empty token sequence nothing is painted and the encoder gets the destination as it was. -/
theorem format_error_is_encoder_error {E : Type} (f : PNGFormatter) (drawer : Drawer)
    (style : Style) (bg : Color) (encode : List PaintOp → Option E)
    (lines : List (List Token)) :
    (f.format drawer style bg encode lines).2
      = encode (f.format drawer style bg encode lines).1.Dst ∧
    (∀ e : E, (f.format drawer style bg encode lines).2 = some e ↔
      encode (f.format drawer style bg encode lines).1.Dst = some e) ∧
    ((f.format drawer style bg encode lines).2 = none ↔
      encode (f.format drawer style bg encode lines).1.Dst = none) ∧
    f.Format drawer style bg encode lines = f.format drawer style bg encode lines ∧
    (f.format drawer style bg encode lines).2 = encode (drawer.Dst ++
      (lines.enum.map (fun p =>
        f.labelOps bg lines.length p.1 (f.baseline p.1)
          ++ lineGlyphs style bg drawer.Face (f.sx drawer lines.length)
              (f.baseline p.1) p.2)).flatten) ∧
    (f.format drawer style bg encode []).1.Dst = drawer.Dst ∧
    (f.format drawer style bg encode []).2 = encode drawer.Dst := by
  have h : (f.format drawer style bg encode lines).2
      = encode (f.format drawer style bg encode lines).1.Dst := rfl
  refine ⟨h, fun e => by rw [h], by rw [h], rfl, ?_, rfl, rfl⟩
  rw [h, format_Dst]

/-! ## The sequence of glyphs -/

theorem lineGlyphs_text (style : Style) (bg : Color) (face : Face) (sx y : Int)
    (tokens : List Token) :
    (lineGlyphs style bg face sx y tokens).map PaintOp.text
      = ((tokens.map Token.Value).flatten.filter painted).map (fun c => [c]) := by
  obtain ⟨ops, h1, h2, _⟩ := foldl_drawToken_Dst style bg sx y tokens
    ⟨[], color.Black, face, ⟨sx, y⟩⟩
  unfold lineGlyphs
  rw [h1, List.nil_append]
  exact h2

theorem lineGlyphs_Y (style : Style) (bg : Color) (face : Face) (sx y : Int)
    (tokens : List Token) :
    (lineGlyphs style bg face sx y tokens).map (fun op => op.dot.Y)
      = List.replicate (lineGlyphs style bg face sx y tokens).length y := by
  obtain ⟨ops, h1, _, h3⟩ := foldl_drawToken_Dst style bg sx y tokens
    ⟨[], color.Black, face, ⟨sx, y⟩⟩
  unfold lineGlyphs
  rw [h1, List.nil_append]
  exact h3

/-- The texts of the glyphs of all lines, whatever text start and height each line is given:
the painted characters of all tokens of all lines, in order. -/
theorem flatten_lineGlyphs_text (style : Style) (bg : Color) (face : Face)
    (sxOf yOf : Nat → Int) (lines : List (List Token)) :
    ∀ i : Nat, ((lines.enumFrom i).map (fun p =>
        lineGlyphs style bg face (sxOf p.1) (yOf p.1) p.2)).flatten.map PaintOp.text
      = ((lines.flatten.map Token.Value).flatten.filter painted).map (fun c => [c]) := by
  induction lines with
  | nil => intro i; simp
  | cons tokens rest ih =>
    intro i
    simp only [List.enumFrom_cons, List.map_cons, List.flatten_cons, List.map_append,
      List.filter_append, ih (i + 1), lineGlyphs_text, List.flatten_append]

theorem labelOps_nil_of_no_line_numbers (f : PNGFormatter) (bg : Color) (nlines i : Nat)
    (y : Int) : ({ f with hasLineNum := false } : PNGFormatter).labelOps bg nlines i y = [] := by
  rw [labelOps_eq]; rfl

/-- C13.  What `format` appends to the destination is, line by line in order, the label of
the line (if line numbers are on) followed by the glyphs of the line; and the glyphs of all
lines, in that order, are exactly the characters of all tokens, in line order, then token
order, then character order, with tabs and newlines removed, one single-character operation
per character.  With line numbers off, that is everything `format` paints. -/
theorem format_paints_every_character_in_order {E : Type} (f : PNGFormatter) (drawer : Drawer)
    (style : Style) (bg : Color) (encode : List PaintOp → Option E)
    (lines : List (List Token)) :
    (f.format drawer style bg encode lines).1.Dst = drawer.Dst ++
      (lines.enum.map (fun p =>
        f.labelOps bg lines.length p.1 (f.baseline p.1)
          ++ lineGlyphs style bg drawer.Face (f.sx drawer lines.length)
              (f.baseline p.1) p.2)).flatten ∧
    (lines.enum.map (fun p =>
        lineGlyphs style bg drawer.Face (f.sx drawer lines.length)
          (f.baseline p.1) p.2)).flatten.map PaintOp.text
      = ((lines.flatten.map Token.Value).flatten.filter painted).map (fun c => [c]) ∧
    ((({ f with hasLineNum := false } : PNGFormatter).format drawer style bg encode
        lines).1.Dst.drop drawer.Dst.length).map PaintOp.text
      = ((lines.flatten.map Token.Value).flatten.filter painted).map (fun c => [c]) := by
  refine ⟨format_Dst f drawer style bg encode lines, ?_, ?_⟩
  · exact flatten_lineGlyphs_text style bg drawer.Face
      (fun _ => f.sx drawer lines.length) f.baseline lines 0
  · rw [format_Dst, List.drop_left]
    simp only [labelOps_nil_of_no_line_numbers, List.nil_append]
    exact flatten_lineGlyphs_text style bg drawer.Face
      (fun _ => ({ f with hasLineNum := false } : PNGFormatter).sx drawer lines.length)
      ({ f with hasLineNum := false } : PNGFormatter).baseline lines 0

/-! ## Baselines in closed form -/

theorem baseline_succ (f : PNGFormatter) (i : Nat) :
    f.baseline (i + 1)
      = wrap32 (f.baseline i + 64 * (goInt f.fontSize + goInt (f.fontSize * 0.25))) := by
  unfold PNGFormatter.baseline
  rw [yIter_succ, Nat.zero_add, advanceY_later]

theorem baseline_eq (f : PNGFormatter) (i : Nat) :
    f.baseline i = wrap32 (64 * (f.startPoint.Y + (i + 1) * goInt f.fontSize
      + i * goInt (f.fontSize * 0.25))) := by
  induction i with
  | zero =>
    unfold PNGFormatter.baseline
    rw [PNGFormatter.yIter, advanceY_first]
    simp only [Nat.cast_zero, zero_add, one_mul, zero_mul, add_zero]
    unfold wrap32
    omega
  | succ i ih =>
    rw [baseline_succ, ih, wrap32_add_left]
    congr 1
    push_cast
    ring

theorem goInt_quarter_of_nonneg (x : ℚ) (hx : 0 ≤ x) : goInt (x * 0.25) = ⌊x / 4⌋ := by
  have hq : x * 0.25 = x / 4 := by norm_num; ring
  rw [hq]
  exact goInt_of_nonneg _ (by positivity)

/-- When `fixed.I(int(fontSize))` does not overflow, the font size is one that Go converts to
an `int`. -/
theorem fontSize_lt_of_fixedI_fits (fs : ℚ) (hfit : inInt32 (64 * ⌊fs⌋)) :
    fs < 9223372036854775808 := by
  have h1 : ⌊fs⌋ < 33554432 := by unfold inInt32 at hfit; omega
  have h2 : fs < (⌊fs⌋ : ℚ) + 1 := Int.lt_floor_add_one fs
  have h3 : ((⌊fs⌋ : Int) : ℚ) + 1 ≤ 33554432 := by exact_mod_cast h1
  linarith

/-- C14.  For every font size `fs ≥ 0` that Go converts to an `int` (`fs < 2^63`, as it is
whenever `fixed.I(int(fs))` does not overflow), start point and 0-based line index `i`: the
label and every glyph of line `i` are painted at the baseline of line `i`, which in 26.6
fixed-point (`int32`) arithmetic is `64 * (startPoint.y + (i + 1) * ⌊fs⌋ + i * ⌊fs / 4⌋)`,
and is exactly that number when it fits in an `int32`.  Hence, when `fs ≥ 1` and nothing
overflows, the baseline of line `i + 1` is strictly below that of line `i`, and when `fs < 1`
all lines share the baseline of the first. -/
theorem baseline_closed_form (f : PNGFormatter) (hfs : 0 ≤ f.fontSize)
    (hmax : f.fontSize < 9223372036854775808) (i : Nat) :
    f.baseline i = wrap32 (64 * (f.startPoint.Y + (i + 1) * ⌊f.fontSize⌋
      + i * ⌊f.fontSize / 4⌋)) ∧
    (inInt32 (64 * (f.startPoint.Y + (i + 1) * ⌊f.fontSize⌋ + i * ⌊f.fontSize / 4⌋)) →
      f.baseline i = 64 * (f.startPoint.Y + (i + 1) * ⌊f.fontSize⌋
        + i * ⌊f.fontSize / 4⌋)) ∧
    (∀ (E : Type) (drawer : Drawer) (style : Style) (bg : Color)
      (encode : List PaintOp → Option E) (lines : List (List Token)),
      (f.format drawer style bg encode lines).1.Dst = drawer.Dst ++
        (lines.enum.map (fun p =>
          f.labelOps bg lines.length p.1 (f.baseline p.1)
            ++ lineGlyphs style bg drawer.Face (f.sx drawer lines.length)
                (f.baseline p.1) p.2)).flatten) ∧
    (∀ (bg : Color) (nlines : Nat),
      (f.labelOps bg nlines i (f.baseline i)).map (fun op => op.dot.Y)
        = List.replicate (f.labelOps bg nlines i (f.baseline i)).length (f.baseline i)) ∧
    (∀ (style : Style) (bg : Color) (face : Face) (sx : Int) (tokens : List Token),
      (lineGlyphs style bg face sx (f.baseline i) tokens).map (fun op => op.dot.Y)
        = List.replicate (lineGlyphs style bg face sx (f.baseline i) tokens).length
            (f.baseline i)) ∧
    (1 ≤ f.fontSize →
      inInt32 (64 * (f.startPoint.Y + (i + 1) * ⌊f.fontSize⌋ + i * ⌊f.fontSize / 4⌋)) →
      inInt32 (64 * (f.startPoint.Y + (i + 1 + 1) * ⌊f.fontSize⌋
        + (i + 1) * ⌊f.fontSize / 4⌋)) →
      f.baseline i < f.baseline (i + 1)) ∧
    (f.fontSize < 1 → f.baseline i = f.baseline 0) := by
  have _ := hmax
  have h1 : goInt f.fontSize = ⌊f.fontSize⌋ := goInt_of_nonneg _ hfs
  have h2 : goInt (f.fontSize * 0.25) = ⌊f.fontSize / 4⌋ := goInt_quarter_of_nonneg _ hfs
  have hE : ∀ j : Nat, f.baseline j = wrap32 (64 * (f.startPoint.Y + (j + 1) * ⌊f.fontSize⌋
      + j * ⌊f.fontSize / 4⌋)) := by
    intro j; rw [baseline_eq, h1, h2]
  refine ⟨hE i, fun hfit => ?_, fun E drawer style bg encode lines => ?_, fun bg nlines => ?_,
    fun style bg face sx tokens => ?_, fun hge hfit hfit1 => ?_, fun hlt => ?_⟩
  · rw [hE i, wrap32_of_inInt32 hfit]
  · exact format_Dst f drawer style bg encode lines
  · rw [labelOps_eq]
    split_ifs <;> simp
  · exact lineGlyphs_Y style bg face sx (f.baseline i) tokens
  · have ha : 1 ≤ ⌊f.fontSize⌋ := Int.le_floor.mpr (by exact_mod_cast hge)
    have hb : 0 ≤ ⌊f.fontSize / 4⌋ := Int.floor_nonneg.mpr (by positivity)
    have e1 := hE (i + 1)
    push_cast at e1
    rw [hE i, e1, wrap32_of_inInt32 hfit, wrap32_of_inInt32 hfit1]
    nlinarith
  · have ha : ⌊f.fontSize⌋ = 0 := Int.floor_eq_iff.mpr ⟨by exact_mod_cast hfs, by simpa using hlt⟩
    have hb : ⌊f.fontSize / 4⌋ = 0 :=
      Int.floor_eq_iff.mpr ⟨by simp only [Int.cast_zero]; positivity, by
        simp only [Int.cast_zero, zero_add]; linarith⟩
    rw [hE i, hE 0, ha, hb]
    simp

theorem baseline_closed_form_witness :
    inInt32 (64 * (formatterA.startPoint.Y + ((1 : Nat) + 1) * ⌊formatterA.fontSize⌋
      + (1 : Nat) * ⌊formatterA.fontSize / 4⌋)) ∧
    formatterA.baseline 1 = 64 * (formatterA.startPoint.Y
      + ((1 : Nat) + 1) * ⌊formatterA.fontSize⌋ + (1 : Nat) * ⌊formatterA.fontSize / 4⌋) :=
  have hfit : inInt32 (64 * (formatterA.startPoint.Y + ((1 : Nat) + 1) * ⌊formatterA.fontSize⌋
      + (1 : Nat) * ⌊formatterA.fontSize / 4⌋)) := by
    have h1 : ⌊formatterA.fontSize⌋ = 10 := by norm_num [formatterA]
    have h2 : ⌊formatterA.fontSize / 4⌋ = 2 := by
      rw [Int.floor_eq_iff]; norm_num [formatterA]
    rw [h1, h2]
    simp only [formatterA]
    decide
  ⟨hfit, (baseline_closed_form formatterA (by norm_num [formatterA])
    (by norm_num [formatterA]) 1).2.1 hfit⟩

/-! ## The contrast threshold -/

/-- The loop of `Palette.Index` compares `paletteSum`. -/
theorem indexLoop_cons (c : Channels) (v : Color) (vs : List Color) (i ret bestSum : Nat) :
    color.Palette.indexLoop c (v :: vs) i ret bestSum =
      if paletteSum c v.RGBA < bestSum then
        if paletteSum c v.RGBA = 0 then i
        else color.Palette.indexLoop c vs (i + 1) i (paletteSum c v.RGBA)
      else color.Palette.indexLoop c vs (i + 1) ret bestSum := rfl

/-- The two distances computed for black and for white are ordered as the sum of the colour
channels is to one and a half times full scale; they are never equal. -/
theorem paletteSum_black_white (r g b a : Nat) (hr : r ≤ 65535) (hg : g ≤ 65535)
    (hb : b ≤ 65535) (ha : a ≤ 65535) :
    (2 * (r + g + b) < 3 * 65535 →
      paletteSum ⟨r, g, b, a⟩ color.Black.RGBA < paletteSum ⟨r, g, b, a⟩ color.White.RGBA) ∧
    (¬ 2 * (r + g + b) < 3 * 65535 →
      paletteSum ⟨r, g, b, a⟩ color.White.RGBA < paletteSum ⟨r, g, b, a⟩ color.Black.RGBA) := by
  simp only [paletteSum, color.Black, color.White, Color.RGBA]
  norm_num only [Nat.zero_mod, Nat.mod_self]
  rw [sqDiff_zero r hr, sqDiff_zero g hg, sqDiff_zero b hb, sqDiff_max r hr, sqDiff_max g hg,
    sqDiff_max b hb, sqDiff_max a ha]
  have h1 := sq_compl r hr
  have h2 := sq_compl g hg
  have h3 := sq_compl b hb
  have k1 : r * r ≤ 65535 * 65535 := Nat.mul_le_mul hr hr
  have k2 : g * g ≤ 65535 * 65535 := Nat.mul_le_mul hg hg
  have k3 : b * b ≤ 65535 * 65535 := Nat.mul_le_mul hb hb
  have k4 : (65535 - a) * (65535 - a) ≤ 65535 * 65535 :=
    Nat.mul_le_mul (Nat.sub_le _ _) (Nat.sub_le _ _)
  have k5 : (65535 - r) * (65535 - r) ≤ 65535 * 65535 :=
    Nat.mul_le_mul (Nat.sub_le _ _) (Nat.sub_le _ _)
  have k6 : (65535 - g) * (65535 - g) ≤ 65535 * 65535 :=
    Nat.mul_le_mul (Nat.sub_le _ _) (Nat.sub_le _ _)
  have k7 : (65535 - b) * (65535 - b) ≤ 65535 * 65535 :=
    Nat.mul_le_mul (Nat.sub_le _ _) (Nat.sub_le _ _)
  generalize r * r = A at *
  generalize g * g = B at *
  generalize b * b = C at *
  generalize (65535 - r) * (65535 - r) = A1 at *
  generalize (65535 - g) * (65535 - g) = B1 at *
  generalize (65535 - b) * (65535 - b) = C1 at *
  generalize (65535 - a) * (65535 - a) = D1 at *
  have hSb : (A / 4 + B / 4 + C / 4 + D1 / 4) % 4294967296 = A / 4 + B / 4 + C / 4 + D1 / 4 :=
    Nat.mod_eq_of_lt (by omega)
  have hSw : (A1 / 4 + B1 / 4 + C1 / 4 + D1 / 4) % 4294967296
      = A1 / 4 + B1 / 4 + C1 / 4 + D1 / 4 :=
    Nat.mod_eq_of_lt (by omega)
  rw [hSb, hSw]
  constructor
  · intro hS
    have key : A / 4 + B / 4 + C / 4 < A1 / 4 + B1 / 4 + C1 / 4 := by omega
    omega
  · intro hS
    have key : A1 / 4 + B1 / 4 + C1 / 4 < A / 4 + B / 4 + C / 4 := by omega
    omega

/-- C15.  For every background colour (16-bit channels `r`, `g`, `b`, `a` in 0..65535): the
two distances that the nearest match against the palette {black, white} computes are never
equal; the palette index and the chosen colour do not depend on the alpha channel; and
`chooseColorBasedOnContrast` returns white if and only if `2 * (r + g + b) < 3 * 65535`.  So
8-bit gray 127 gives white and 8-bit gray 128 gives black. -/
theorem contrast_threshold (bg : Color) :
    paletteSum bg.RGBA color.Black.RGBA ≠ paletteSum bg.RGBA color.White.RGBA ∧
    (color.Palette.Index [color.Black, color.White] bg =
      if 2 * (bg.RGBA.r + bg.RGBA.g + bg.RGBA.b) < 3 * 65535 then 0 else 1) ∧
    (chooseColorBasedOnContrast bg = color.White ↔
      2 * (bg.RGBA.r + bg.RGBA.g + bg.RGBA.b) < 3 * 65535) ∧
    (∀ a : Nat, chooseColorBasedOnContrast (.rgba64 bg.RGBA.r bg.RGBA.g bg.RGBA.b a)
      = chooseColorBasedOnContrast bg) ∧
    chooseColorBasedOnContrast (.rgba 127 127 127 255) = color.White ∧
    chooseColorBasedOnContrast (.rgba 128 128 128 255) = color.Black := by
  obtain ⟨hr, hg, hb, ha⟩ := Color.RGBA_le bg
  refine ⟨?_, ?_, ?_, fun a => ?_, by decide, by decide⟩
  · obtain ⟨h1, h2⟩ := paletteSum_black_white bg.RGBA.r bg.RGBA.g bg.RGBA.b bg.RGBA.a
      hr hg hb ha
    by_cases hS : 2 * (bg.RGBA.r + bg.RGBA.g + bg.RGBA.b) < 3 * 65535
    · exact Nat.ne_of_lt (h1 hS)
    · exact Nat.ne_of_gt (h2 hS)
  · unfold color.Palette.Index
    exact indexLoop_black_white bg.RGBA.r bg.RGBA.g bg.RGBA.b bg.RGBA.a hr hg hb ha
  · rw [chooseColorBasedOnContrast_eq]
    split_ifs with h
    · simp [h]
    · simp [h, color.Black, color.White]
  · rw [chooseColorBasedOnContrast_eq, chooseColorBasedOnContrast_eq bg]
    generalize bg.RGBA = ch at *
    have hm : ∀ x : Nat, x ≤ 65535 → x % 65536 = x := fun x hx => by omega
    simp only [Color.RGBA, hm _ hr, hm _ hg, hm _ hb]

end Germanium
